import Mathlib

/-!
Verification of the width-conversion layer of `primitive-types/src/lib.rs`.

The source defines unsigned integers `U128`, `U256`, `U512` as little-endian
arrays of 64-bit limbs (2, 4 and 8 limbs respectively), widening `From`
conversions, checked narrowing `TryFrom` conversions returning
`Err(Error::Overflow)` on loss, a widening `full_mul : U256 → U256 → U512`,
lossy `f64` interop for `U256`, and a byte-level `H160 ↔ H256` bridge.

Limbs are embedded as `Nat` fields; the well-formedness predicate `wf`
states every limb is below `2 ^ 64`.  The numeric value of a limb array is
`Σ limb i * 2 ^ (64 * i)`.  Operations whose code lives in the external
`uint` / `fixed-hash` crates (the arithmetic kernel and the hash bridge) are
modelled from the specification; each such definition says so in its doc
comment.
-/

/-- Error type for conversion; `Overflow` is its only constructor
(source lines 23–28). -/
inductive Error where
  | Overflow
deriving DecidableEq

/-- 128-bit unsigned integer: two 64-bit limbs, limb 0 least significant
(`construct_uint! { pub struct U128(2); }`). -/
@[ext]
structure U128 where
  a0 : Nat
  a1 : Nat
deriving DecidableEq

/-- 256-bit unsigned integer: four 64-bit limbs, limb 0 least significant
(`construct_uint! { pub struct U256(4); }`). -/
@[ext]
structure U256 where
  a0 : Nat
  a1 : Nat
  a2 : Nat
  a3 : Nat
deriving DecidableEq

/-- 512-bit unsigned integer: eight 64-bit limbs, limb 0 least significant
(`construct_uint! { pub struct U512(8); }`). -/
@[ext]
structure U512 where
  a0 : Nat
  a1 : Nat
  a2 : Nat
  a3 : Nat
  a4 : Nat
  a5 : Nat
  a6 : Nat
  a7 : Nat
deriving DecidableEq

/-- Every limb fits in 64 bits (invariant of the Rust `u64` limb array). -/
abbrev U128.wf (x : U128) : Prop := x.a0 < 2 ^ 64 ∧ x.a1 < 2 ^ 64

/-- Every limb fits in 64 bits (invariant of the Rust `u64` limb array). -/
abbrev U256.wf (x : U256) : Prop :=
  x.a0 < 2 ^ 64 ∧ x.a1 < 2 ^ 64 ∧ x.a2 < 2 ^ 64 ∧ x.a3 < 2 ^ 64

/-- Every limb fits in 64 bits (invariant of the Rust `u64` limb array). -/
abbrev U512.wf (x : U512) : Prop :=
  x.a0 < 2 ^ 64 ∧ x.a1 < 2 ^ 64 ∧ x.a2 < 2 ^ 64 ∧ x.a3 < 2 ^ 64 ∧
  x.a4 < 2 ^ 64 ∧ x.a5 < 2 ^ 64 ∧ x.a6 < 2 ^ 64 ∧ x.a7 < 2 ^ 64

/-- Numeric value of a `U128`: little-endian limb interpretation. -/
def U128.value (x : U128) : Nat := x.a0 + 2 ^ 64 * x.a1

/-- Numeric value of a `U256`: little-endian limb interpretation. -/
def U256.value (x : U256) : Nat :=
  x.a0 + 2 ^ 64 * x.a1 + 2 ^ 128 * x.a2 + 2 ^ 192 * x.a3

/-- Numeric value of a `U512`: little-endian limb interpretation. -/
def U512.value (x : U512) : Nat :=
  x.a0 + 2 ^ 64 * x.a1 + 2 ^ 128 * x.a2 + 2 ^ 192 * x.a3 +
  2 ^ 256 * x.a4 + 2 ^ 320 * x.a5 + 2 ^ 384 * x.a6 + 2 ^ 448 * x.a7

/-- Canonical `U256` holding `n % 2 ^ 256`: the little-endian limb
decomposition used by the kernel's constructors (`U256::from`). -/
def U256.ofNat (n : Nat) : U256 :=
  ⟨n % 2 ^ 64, n / 2 ^ 64 % 2 ^ 64, n / 2 ^ 128 % 2 ^ 64, n / 2 ^ 192 % 2 ^ 64⟩

/-- Canonical `U512` holding `n % 2 ^ 512`. -/
def U512.ofNat (n : Nat) : U512 :=
  ⟨n % 2 ^ 64, n / 2 ^ 64 % 2 ^ 64, n / 2 ^ 128 % 2 ^ 64, n / 2 ^ 192 % 2 ^ 64,
   n / 2 ^ 256 % 2 ^ 64, n / 2 ^ 320 % 2 ^ 64, n / 2 ^ 384 % 2 ^ 64,
   n / 2 ^ 448 % 2 ^ 64⟩

/-- Maximum 256-bit value (`U256::MAX`, all bits set). -/
def U256.MAX : U256 := ⟨2 ^ 64 - 1, 2 ^ 64 - 1, 2 ^ 64 - 1, 2 ^ 64 - 1⟩

/-- `impl From<U256> for U512` (source lines 154–164): copy the four limbs
into the low positions, higher limbs zero. -/
def U512.from_u256 (v : U256) : U512 := ⟨v.a0, v.a1, v.a2, v.a3, 0, 0, 0, 0⟩

/-- `impl TryFrom<U256> for U128` (source lines 166–179): fail with
`Overflow` when `arr[2] | arr[3] != 0`, else copy the low two limbs. -/
def U128.try_from_u256 (v : U256) : Except Error U128 :=
  if v.a2 ||| v.a3 ≠ 0 then .error .Overflow else .ok ⟨v.a0, v.a1⟩

/-- `impl TryFrom<U512> for U256` (source lines 181–196): fail with
`Overflow` when `arr[4] | arr[5] | arr[6] | arr[7] != 0`, else copy the low
four limbs. -/
def U256.try_from_u512 (v : U512) : Except Error U256 :=
  if v.a4 ||| v.a5 ||| v.a6 ||| v.a7 ≠ 0 then .error .Overflow
  else .ok ⟨v.a0, v.a1, v.a2, v.a3⟩

/-- `impl TryFrom<U512> for U128` (source lines 198–211): fail with
`Overflow` when `arr[2] | arr[3] | arr[4] | arr[5] | arr[6] | arr[7] != 0`,
else copy the low two limbs. -/
def U128.try_from_u512 (v : U512) : Except Error U128 :=
  if v.a2 ||| v.a3 ||| v.a4 ||| v.a5 ||| v.a6 ||| v.a7 ≠ 0 then .error .Overflow
  else .ok ⟨v.a0, v.a1⟩

/-- `impl From<U128> for U512` (source lines 213–221). -/
def U512.from_u128 (v : U128) : U512 := ⟨v.a0, v.a1, 0, 0, 0, 0, 0, 0⟩

/-- `impl From<U128> for U256` (source lines 223–231). -/
def U256.from_u128 (v : U128) : U256 := ⟨v.a0, v.a1, 0, 0⟩

/-- `impl From<&U256> for U512` (source lines 233–243), the reference-typed
variant; its body repeats the by-value conversion verbatim. -/
def U512.from_u256_ref (v : U256) : U512 := ⟨v.a0, v.a1, v.a2, v.a3, 0, 0, 0, 0⟩

/-- `impl TryFrom<&U512> for U256` (source lines 245–260), the
reference-typed variant; its body repeats the by-value conversion verbatim. -/
def U256.try_from_u512_ref (v : U512) : Except Error U256 :=
  if v.a4 ||| v.a5 ||| v.a6 ||| v.a7 ≠ 0 then .error .Overflow
  else .ok ⟨v.a0, v.a1, v.a2, v.a3⟩

/-- Modelled from the spec: `U256::full_mul` (source lines 110–112) delegates
to the external `uint` kernel's `uint_full_mul_reg!` full-precision
multiply-with-carry routine, which produces the exact double-width product in
eight limbs; modelled by that defining property. -/
def U256.full_mul (a b : U256) : U512 := U512.ofNat (a.value * b.value)

/-- Modelled from the spec: the external `uint` kernel's left-shift primitive
(`impl Shl` generated by `construct_uint!`), which shifts left discarding bits
beyond 256; value-level semantics `(value * 2 ^ k) % 2 ^ 256`. -/
def U256.shl (x : U256) (k : Nat) : U256 := U256.ofNat (x.value * 2 ^ k)

/-- Modelled from the spec: the external `uint` kernel's right-shift primitive
(`impl Shr` generated by `construct_uint!`); value-level semantics
`value / 2 ^ k`. -/
def U256.shr (x : U256) (k : Nat) : U256 := U256.ofNat (x.value / 2 ^ k)

/-- Modelled from the spec: the external `uint` kernel's `low_u128`
(generated by `construct_uint!`), the low 128 bits as an unsigned integer. -/
def U256.low_u128 (x : U256) : Nat := x.value % 2 ^ 128

/-- Bitwise-or of two naturals is zero exactly when both are zero. -/
lemma lor_eq_zero_iff (a b : Nat) : a ||| b = 0 ↔ a = 0 ∧ b = 0 := by
  constructor
  · intro h
    constructor
    · apply Nat.eq_of_testBit_eq
      intro i
      have h2 := congrArg (fun n => Nat.testBit n i) h
      simp only [Nat.testBit_or, Nat.zero_testBit, Bool.or_eq_false_iff] at h2
      simpa using h2.1
    · apply Nat.eq_of_testBit_eq
      intro i
      have h2 := congrArg (fun n => Nat.testBit n i) h
      simp only [Nat.testBit_or, Nat.zero_testBit, Bool.or_eq_false_iff] at h2
      simpa using h2.2
  · rintro ⟨rfl, rfl⟩
    rfl

/-- The canonical 256-bit limb decomposition represents `n % 2 ^ 256`. -/
lemma U256.value_ofNat256 (n : Nat) : (U256.ofNat n).value = n % 2 ^ 256 := by
  simp only [U256.ofNat, U256.value]
  omega

/-- The canonical 512-bit limb decomposition represents `n % 2 ^ 512`. -/
lemma U512.value_ofNat512 (n : Nat) : (U512.ofNat n).value = n % 2 ^ 512 := by
  simp only [U512.ofNat, U512.value]
  omega

/-- A well-formed `U256` is the canonical representation of its value. -/
lemma U256.ofNat_value (v : U256) (h : v.wf) : U256.ofNat v.value = v := by
  obtain ⟨h0, h1, h2, h3⟩ := h
  ext <;> simp only [U256.ofNat, U256.value] <;> omega

/-- A well-formed `U256` has value below `2 ^ 256`. -/
lemma U256.value_lt (v : U256) (h : v.wf) : v.value < 2 ^ 256 := by
  obtain ⟨h0, h1, h2, h3⟩ := h
  simp only [U256.value]
  omega

/-- Claim C1: each narrowing conversion (`U256→U128`, `U512→U256`,
`U512→U128`) returns `Ok` iff every limb at index at least the target's limb
count is zero, returns `Err(Error::Overflow)` otherwise, preserves the numeric
value on success, and (for well-formed input) succeeds exactly on values below
the target width, so the boundary value narrows and any set bit at or above
the target width fails. -/
theorem claim_C1 (v : U256) (w : U512) :
    ((∃ r, U128.try_from_u256 v = .ok r) ↔ v.a2 = 0 ∧ v.a3 = 0) ∧
    (¬(v.a2 = 0 ∧ v.a3 = 0) → U128.try_from_u256 v = .error .Overflow) ∧
    (∀ r, U128.try_from_u256 v = .ok r → r.value = v.value) ∧
    (v.wf → ((∃ r, U128.try_from_u256 v = .ok r) ↔ v.value < 2 ^ 128)) ∧
    ((∃ r, U256.try_from_u512 w = .ok r) ↔
      w.a4 = 0 ∧ w.a5 = 0 ∧ w.a6 = 0 ∧ w.a7 = 0) ∧
    (¬(w.a4 = 0 ∧ w.a5 = 0 ∧ w.a6 = 0 ∧ w.a7 = 0) →
      U256.try_from_u512 w = .error .Overflow) ∧
    (∀ r, U256.try_from_u512 w = .ok r → r.value = w.value) ∧
    (w.wf → ((∃ r, U256.try_from_u512 w = .ok r) ↔ w.value < 2 ^ 256)) ∧
    ((∃ r, U128.try_from_u512 w = .ok r) ↔
      w.a2 = 0 ∧ w.a3 = 0 ∧ w.a4 = 0 ∧ w.a5 = 0 ∧ w.a6 = 0 ∧ w.a7 = 0) ∧
    (¬(w.a2 = 0 ∧ w.a3 = 0 ∧ w.a4 = 0 ∧ w.a5 = 0 ∧ w.a6 = 0 ∧ w.a7 = 0) →
      U128.try_from_u512 w = .error .Overflow) ∧
    (∀ r, U128.try_from_u512 w = .ok r → r.value = w.value) ∧
    (w.wf → ((∃ r, U128.try_from_u512 w = .ok r) ↔ w.value < 2 ^ 128)) := by
  have e1 : v.a2 ||| v.a3 = 0 ↔ v.a2 = 0 ∧ v.a3 = 0 := lor_eq_zero_iff _ _
  have e2 : w.a4 ||| w.a5 ||| w.a6 ||| w.a7 = 0 ↔
      w.a4 = 0 ∧ w.a5 = 0 ∧ w.a6 = 0 ∧ w.a7 = 0 := by
    rw [lor_eq_zero_iff, lor_eq_zero_iff, lor_eq_zero_iff]
    tauto
  have e3 : w.a2 ||| w.a3 ||| w.a4 ||| w.a5 ||| w.a6 ||| w.a7 = 0 ↔
      w.a2 = 0 ∧ w.a3 = 0 ∧ w.a4 = 0 ∧ w.a5 = 0 ∧ w.a6 = 0 ∧ w.a7 = 0 := by
    rw [lor_eq_zero_iff, lor_eq_zero_iff, lor_eq_zero_iff, lor_eq_zero_iff,
      lor_eq_zero_iff]
    tauto
  refine ⟨?_, ?_, ?_, ?_, ?_, ?_, ?_, ?_, ?_, ?_, ?_, ?_⟩
  · unfold U128.try_from_u256
    split
    · rename_i hne
      constructor
      · rintro ⟨r, hr⟩
        exact absurd hr (by simp)
      · intro hz
        exact absurd (e1.mpr hz) hne
    · rename_i hne
      rw [not_not] at hne
      exact ⟨fun _ => e1.mp hne, fun _ => ⟨_, rfl⟩⟩
  · intro hz
    unfold U128.try_from_u256
    rw [if_pos (fun h => hz (e1.mp h))]
  · intro r hr
    unfold U128.try_from_u256 at hr
    split at hr
    · exact absurd hr (by simp)
    · rename_i hne
      rw [not_not] at hne
      obtain ⟨hz2, hz3⟩ := e1.mp hne
      cases hr
      simp [U128.value, U256.value, hz2, hz3]
  · intro hwf
    unfold U128.try_from_u256
    obtain ⟨h0, h1, h2, h3⟩ := hwf
    split
    · rename_i hne
      constructor
      · rintro ⟨r, hr⟩
        exact absurd hr (by simp)
      · intro hlt
        have : v.a2 = 0 ∧ v.a3 = 0 := by
          simp only [U256.value] at hlt
          omega
        exact absurd (e1.mpr this) hne
    · rename_i hne
      rw [not_not] at hne
      obtain ⟨hz2, hz3⟩ := e1.mp hne
      refine ⟨fun _ => ?_, fun _ => ⟨_, rfl⟩⟩
      simp only [U256.value, hz2, hz3]
      omega
  · unfold U256.try_from_u512
    split
    · rename_i hne
      constructor
      · rintro ⟨r, hr⟩
        exact absurd hr (by simp)
      · intro hz
        exact absurd (e2.mpr hz) hne
    · rename_i hne
      rw [not_not] at hne
      exact ⟨fun _ => e2.mp hne, fun _ => ⟨_, rfl⟩⟩
  · intro hz
    unfold U256.try_from_u512
    rw [if_pos (fun h => hz (e2.mp h))]
  · intro r hr
    unfold U256.try_from_u512 at hr
    split at hr
    · exact absurd hr (by simp)
    · rename_i hne
      rw [not_not] at hne
      obtain ⟨hz4, hz5, hz6, hz7⟩ := e2.mp hne
      cases hr
      simp [U256.value, U512.value, hz4, hz5, hz6, hz7]
  · intro hwf
    unfold U256.try_from_u512
    obtain ⟨h0, h1, h2, h3, h4, h5, h6, h7⟩ := hwf
    split
    · rename_i hne
      constructor
      · rintro ⟨r, hr⟩
        exact absurd hr (by simp)
      · intro hlt
        have : w.a4 = 0 ∧ w.a5 = 0 ∧ w.a6 = 0 ∧ w.a7 = 0 := by
          simp only [U512.value] at hlt
          omega
        exact absurd (e2.mpr this) hne
    · rename_i hne
      rw [not_not] at hne
      obtain ⟨hz4, hz5, hz6, hz7⟩ := e2.mp hne
      refine ⟨fun _ => ?_, fun _ => ⟨_, rfl⟩⟩
      simp only [U512.value, hz4, hz5, hz6, hz7]
      omega
  · unfold U128.try_from_u512
    split
    · rename_i hne
      constructor
      · rintro ⟨r, hr⟩
        exact absurd hr (by simp)
      · intro hz
        exact absurd (e3.mpr hz) hne
    · rename_i hne
      rw [not_not] at hne
      exact ⟨fun _ => e3.mp hne, fun _ => ⟨_, rfl⟩⟩
  · intro hz
    unfold U128.try_from_u512
    rw [if_pos (fun h => hz (e3.mp h))]
  · intro r hr
    unfold U128.try_from_u512 at hr
    split at hr
    · exact absurd hr (by simp)
    · rename_i hne
      rw [not_not] at hne
      obtain ⟨hz2, hz3, hz4, hz5, hz6, hz7⟩ := e3.mp hne
      cases hr
      simp [U128.value, U512.value, hz2, hz3, hz4, hz5, hz6, hz7]
  · intro hwf
    unfold U128.try_from_u512
    obtain ⟨h0, h1, h2, h3, h4, h5, h6, h7⟩ := hwf
    split
    · rename_i hne
      constructor
      · rintro ⟨r, hr⟩
        exact absurd hr (by simp)
      · intro hlt
        have : w.a2 = 0 ∧ w.a3 = 0 ∧ w.a4 = 0 ∧ w.a5 = 0 ∧ w.a6 = 0 ∧
            w.a7 = 0 := by
          simp only [U512.value] at hlt
          omega
        exact absurd (e3.mpr this) hne
    · rename_i hne
      rw [not_not] at hne
      obtain ⟨hz2, hz3, hz4, hz5, hz6, hz7⟩ := e3.mp hne
      refine ⟨fun _ => ?_, fun _ => ⟨_, rfl⟩⟩
      simp only [U512.value, hz2, hz3, hz4, hz5, hz6, hz7]
      omega

/-- Witness for C1: the boundary value `2 ^ 128 - 1` (limbs
`[max, max, 0, 0]`) narrows successfully from 256 to 128 bits. -/
theorem claim_C1_witness :
    ∃ r, U128.try_from_u256 ⟨2 ^ 64 - 1, 2 ^ 64 - 1, 0, 0⟩ = .ok r :=
  ((claim_C1 ⟨2 ^ 64 - 1, 2 ^ 64 - 1, 0, 0⟩
      ⟨0, 0, 0, 0, 0, 0, 0, 0⟩).2.2.2.1 (by decide)).mpr (by decide)

/-- Claim C2: every widening conversion (`U128→U256`, `U128→U512`,
`U256→U512`) is total, copies the source limbs into the low positions with all
higher limbs zero, and preserves the numeric value exactly. -/
theorem claim_C2 (v : U128) (w : U256) :
    (U256.from_u128 v = ⟨v.a0, v.a1, 0, 0⟩ ∧
      (U256.from_u128 v).value = v.value) ∧
    (U512.from_u128 v = ⟨v.a0, v.a1, 0, 0, 0, 0, 0, 0⟩ ∧
      (U512.from_u128 v).value = v.value) ∧
    (U512.from_u256 w = ⟨w.a0, w.a1, w.a2, w.a3, 0, 0, 0, 0⟩ ∧
      (U512.from_u256 w).value = w.value) := by
  refine ⟨⟨rfl, ?_⟩, ⟨rfl, ?_⟩, ⟨rfl, ?_⟩⟩ <;>
    simp [U128.value, U256.value, U512.value, U256.from_u128, U512.from_u128,
      U512.from_u256]

/-- Claim C3: widening round-trip — narrowing a widened value succeeds and
returns the original, for each valid width pair (256 through 512, 128 through
256, 128 through 512). -/
theorem claim_C3 (v : U128) (w : U256) :
    U256.try_from_u512 (U512.from_u256 w) = .ok w ∧
    U128.try_from_u256 (U256.from_u128 v) = .ok v ∧
    U128.try_from_u512 (U512.from_u128 v) = .ok v := by
  refine ⟨?_, ?_, ?_⟩ <;>
    simp [U256.try_from_u512, U512.from_u256, U128.try_from_u256,
      U256.from_u128, U128.try_from_u512, U512.from_u128]

/-- Claim C10: the reference-typed conversion variants
(`From<&U256> for U512`, `TryFrom<&U512> for U256`) agree with the by-value
conversions on every input: same success or failure outcome, same value. -/
theorem claim_C10 (w : U256) (v : U512) :
    U512.from_u256_ref w = U512.from_u256 w ∧
    U256.try_from_u512_ref v = U256.try_from_u512 v :=
  ⟨rfl, rfl⟩

/-- Claim C4: `full_mul` of two well-formed 256-bit operands is the exact
512-bit product — total, no overflow path. -/
theorem claim_C4 (a b : U256) (ha : a.wf) (hb : b.wf) :
    (U256.full_mul a b).value = a.value * b.value := by
  have hA := U256.value_lt a ha
  have hB := U256.value_lt b hb
  have hprod : a.value * b.value < 2 ^ 512 := by
    calc a.value * b.value ≤ (2 ^ 256 - 1) * (2 ^ 256 - 1) :=
          Nat.mul_le_mul (by omega) (by omega)
      _ < 2 ^ 512 := by norm_num
  unfold U256.full_mul
  rw [U512.value_ofNat512]
  exact Nat.mod_eq_of_lt hprod

set_option maxRecDepth 4000 in
/-- Witness for C4: `full_mul (2 ^ 255) (2 ^ 255) = 2 ^ 510`, nonzero only in
the upper half. -/
theorem claim_C4_witness :
    (U256.full_mul ⟨0, 0, 0, 2 ^ 63⟩ ⟨0, 0, 0, 2 ^ 63⟩).value = 2 ^ 510 := by
  rw [claim_C4 ⟨0, 0, 0, 2 ^ 63⟩ ⟨0, 0, 0, 2 ^ 63⟩ (by decide) (by decide)]
  decide

/-- IEEE-754 binary64 bit pattern, split into its three fields: sign (1 bit),
biased exponent `be` (11 bits), mantissa field `mf` (52 bits).  This is the
value `f64::to_bits` exposes to `from_f64_lossy`. -/
@[ext]
structure F64 where
  sign : Nat
  be : Nat
  mf : Nat
deriving DecidableEq

/-- Field bounds of a binary64 bit pattern. -/
abbrev F64.wf (x : F64) : Prop := x.sign < 2 ∧ x.be < 2 ^ 11 ∧ x.mf < 2 ^ 52

/-- The 64-bit pattern `f64::to_bits` returns: sign in bit 63, biased
exponent in bits 52–62, mantissa field in bits 0–51. -/
def F64.toBits (x : F64) : Nat := x.sign * 2 ^ 63 + x.be * 2 ^ 52 + x.mf

/-- Not-a-number: exponent field all ones with nonzero mantissa field. -/
abbrev F64.isNaN (x : F64) : Prop := x.be = 2047 ∧ x.mf ≠ 0

/-- Positive infinity: exponent field all ones, zero mantissa, sign 0. -/
abbrev F64.isPosInf (x : F64) : Prop := x.be = 2047 ∧ x.mf = 0 ∧ x.sign = 0

/-- Negative infinity: exponent field all ones, zero mantissa, sign 1. -/
abbrev F64.isNegInf (x : F64) : Prop := x.be = 2047 ∧ x.mf = 0 ∧ x.sign = 1

/-- Finite number: exponent field not all ones. -/
abbrev F64.isFinite (x : F64) : Prop := x.be ≠ 2047

/-- Magnitude of a finite binary64 pattern as an exact rational:
subnormal `mf * 2 ^ (-1074)` when the exponent field is zero, else
`(2 ^ 52 + mf) * 2 ^ (be - 1075)` (implicit leading one bit). -/
def F64.mag (x : F64) : ℚ :=
  if x.be = 0 then (x.mf : ℚ) * (2 : ℚ) ^ (-(1074 : ℤ))
  else ((2 ^ 52 + x.mf : ℕ) : ℚ) * (2 : ℚ) ^ ((x.be : ℤ) - 1075)

/-- Numeric value of a finite binary64 pattern (signed magnitude). -/
def F64.val (x : F64) : ℚ := (if x.sign = 0 then 1 else -1) * x.mag

/-- The IEEE comparison `value >= 1.0` performed by `from_f64_lossy`'s guard:
false on NaN, true exactly on non-negative patterns with biased exponent at
least 1023 (which covers positive infinity).  `ge_one_iff_one_le_val` below
checks this against the rational semantics on finite patterns. -/
def F64.ge_one (x : F64) : Bool :=
  decide (¬ x.isNaN ∧ x.sign = 0 ∧ 1023 ≤ x.be)

/-- The expression `((bits >> 52) & 0x7ff)` of `from_f64_lossy`: shifting
right by 52 is division by `2 ^ 52`, masking with `0x7ff` is reduction mod
`2 ^ 11`. -/
def F64.exponentField (x : F64) : Nat := x.toBits / 2 ^ 52 % 2 ^ 11

/-- The expression `(bits & 0x0f_ffff_ffff_ffff) | 0x10_0000_0000_0000` of
`from_f64_lossy`: masking with `2 ^ 52 - 1` is reduction mod `2 ^ 52`, and
or-ing in the disjoint bit `2 ^ 52` is addition. -/
def F64.mantissa (x : F64) : Nat := x.toBits % 2 ^ 52 + 2 ^ 52

/-- `U256::from_f64_lossy` (source lines 123–141): on `value >= 1.0`, extract
the unbiased exponent and the 53-bit mantissa from the bit pattern; if the
exponent is at most 52 shift the mantissa down, if it is at least 256
saturate to `U256::MAX`, otherwise shift the mantissa up into the 256-bit
width; all other inputs map to zero. -/
def U256.from_f64_lossy (x : F64) : U256 :=
  if x.ge_one then
    let exponent := x.exponentField - 1023
    if exponent ≤ 52 then
      U256.ofNat (x.mantissa / 2 ^ (52 - exponent))
    else if 256 ≤ exponent then
      U256.MAX
    else
      U256.shl (U256.ofNat x.mantissa) (exponent - 52)
  else U256.ofNat 0

/-- Decoding the exponent field from the packed bits recovers `be`. -/
lemma F64.exponentField_eq (x : F64) (h : x.wf) : x.exponentField = x.be := by
  obtain ⟨hs, hb, hm⟩ := h
  simp only [F64.exponentField, F64.toBits]
  omega

/-- Decoding the mantissa from the packed bits recovers `2 ^ 52 + mf`. -/
lemma F64.mantissa_eq (x : F64) (h : x.wf) : x.mantissa = 2 ^ 52 + x.mf := by
  obtain ⟨hs, hb, hm⟩ := h
  simp only [F64.mantissa, F64.toBits]
  omega

/-- Rational floor of a natural divided by a power of two is natural
division. -/
lemma floor_natCast_div_pow (m k : Nat) :
    ⌊(m : ℚ) / 2 ^ k⌋ = (m / 2 ^ k : Nat) := by
  have hpos : (0 : ℚ) < 2 ^ k := by positivity
  rw [Int.floor_eq_iff]
  constructor
  · rw [le_div_iff hpos]
    have h := Nat.div_mul_le_self m (2 ^ k)
    exact_mod_cast h
  · rw [div_lt_iff hpos]
    have h1 := Nat.div_add_mod m (2 ^ k)
    have h2 : m % 2 ^ k < 2 ^ k := Nat.mod_lt _ (by positivity)
    have h3 : m < (m / 2 ^ k + 1) * 2 ^ k := by nlinarith
    exact_mod_cast h3

/-- Magnitude of a pattern with biased exponent at least 1023, as a single
division: `((2 ^ 52 + mf) * 2 ^ (be - 1023)) / 2 ^ 52`. -/
lemma F64.mag_normal (x : F64) (hbe : 1023 ≤ x.be) :
    x.mag = (((2 ^ 52 + x.mf) * 2 ^ (x.be - 1023) : ℕ) : ℚ) / 2 ^ 52 := by
  have hne : x.be ≠ 0 := by omega
  have he : (x.be : ℤ) - 1075 = ((x.be - 1023 : ℕ) : ℤ) - 52 := by omega
  simp only [F64.mag, if_neg hne, he]
  rw [zpow_sub₀ (two_ne_zero), zpow_natCast]
  push_cast
  ring

/-- Magnitude is nonnegative. -/
lemma F64.mag_nonneg (x : F64) : 0 ≤ x.mag := by
  unfold F64.mag
  split
  · positivity
  · positivity

/-- A well-formed pattern with biased exponent below 1023 has magnitude
below one. -/
lemma F64.mag_lt_one (x : F64) (h : x.wf) (hbe : x.be < 1023) : x.mag < 1 := by
  obtain ⟨hs, hb, hm⟩ := h
  unfold F64.mag
  split
  · rename_i h0
    have : (2 : ℚ) ^ (-(1074 : ℤ)) = ((2 ^ 1074 : ℕ) : ℚ)⁻¹ := by
      rw [zpow_neg]
      norm_num
    rw [this, ← div_eq_mul_inv, div_lt_one (by positivity)]
    exact_mod_cast hm.trans (by norm_num)
  · rename_i h0
    have he : (x.be : ℤ) - 1075 = -(((1075 - x.be : ℕ) : ℤ)) := by omega
    rw [he, zpow_neg, zpow_natCast, ← div_eq_mul_inv,
      div_lt_one (by positivity)]
    have h53 : (2 ^ 52 + x.mf : ℕ) < 2 ^ 53 := by omega
    have hle : (2 : ℕ) ^ 53 ≤ 2 ^ (1075 - x.be) :=
      Nat.pow_le_pow_right (by norm_num) (by omega)
    exact_mod_cast h53.trans_le hle

/-- A pattern with biased exponent at least 1023 has magnitude at least
one. -/
lemma F64.one_le_mag (x : F64) (hbe : 1023 ≤ x.be) : 1 ≤ x.mag := by
  rw [F64.mag_normal x hbe, le_div_iff (by positivity)]
  have h : (2 ^ 52 : ℕ) ≤ (2 ^ 52 + x.mf) * 2 ^ (x.be - 1023) :=
    calc (2 ^ 52 : ℕ) = 2 ^ 52 * 1 := by ring
      _ ≤ (2 ^ 52 + x.mf) * 2 ^ (x.be - 1023) :=
          Nat.mul_le_mul (by omega) (Nat.one_le_two_pow)
  calc (1 : ℚ) * 2 ^ 52 = ((2 ^ 52 : ℕ) : ℚ) := by norm_num
    _ ≤ _ := by exact_mod_cast h

/-- The bit-level guard `ge_one` agrees with the rational semantics on
finite well-formed patterns. -/
lemma F64.ge_one_iff_one_le_val (x : F64) (h : x.wf) (hf : x.isFinite) :
    x.ge_one = true ↔ 1 ≤ x.val := by
  rw [F64.ge_one, decide_eq_true_iff]
  constructor
  · rintro ⟨-, hs, hbe⟩
    rw [F64.val, if_pos hs, one_mul]
    exact F64.one_le_mag x hbe
  · intro hval
    have hs : x.sign = 0 := by
      by_contra hs
      rw [F64.val, if_neg hs] at hval
      have := F64.mag_nonneg x
      nlinarith
    rw [F64.val, if_pos hs, one_mul] at hval
    have hbe : 1023 ≤ x.be := by
      by_contra hbe
      exact absurd hval (not_le.mpr (F64.mag_lt_one x h (by omega)))
    exact ⟨fun hn => hf hn.1, hs, hbe⟩

/-- Claim C9: under the guard `value >= 1.0` the biased exponent field is at
least 1023 so subtracting 1023 cannot underflow; in the low branch the shift
amount `52 - exponent` stays in `[0, 52]`; in the remaining branch the shift
amount `exponent - 52` lies in `[1, 203]` and the shifted 53-bit mantissa
fits in 256 bits — no operation of `from_f64_lossy` over- or underflows. -/
theorem claim_C9 (x : F64) (h : x.wf) (hg : x.ge_one = true) :
    1023 ≤ x.exponentField ∧
    (x.exponentField - 1023 ≤ 52 → 52 - (x.exponentField - 1023) ≤ 52) ∧
    (52 < x.exponentField - 1023 → x.exponentField - 1023 < 256 →
      1 ≤ x.exponentField - 1023 - 52 ∧ x.exponentField - 1023 - 52 ≤ 203 ∧
      x.mantissa * 2 ^ (x.exponentField - 1023 - 52) < 2 ^ 256) := by
  rw [F64.ge_one, decide_eq_true_iff] at hg
  obtain ⟨-, hs, hbe⟩ := hg
  rw [F64.exponentField_eq x h, F64.mantissa_eq x h]
  obtain ⟨hs2, hb, hm⟩ := h
  refine ⟨hbe, fun _ => by omega, fun h1 h2 => ⟨by omega, by omega, ?_⟩⟩
  have hmlt : 2 ^ 52 + x.mf < 2 ^ 53 := by omega
  have hshift : (2 : ℕ) ^ (x.be - 1023 - 52) ≤ 2 ^ 203 :=
    Nat.pow_le_pow_right (by norm_num) (by omega)
  calc (2 ^ 52 + x.mf) * 2 ^ (x.be - 1023 - 52) ≤ (2 ^ 53 - 1) * 2 ^ 203 :=
        Nat.mul_le_mul (by omega) hshift
    _ < 2 ^ 256 := by norm_num

/-- Witness for C9: the pattern of `2.0 ^ 77 * 1.0000000000000016`
(sign 0, biased exponent 1100, mantissa field 7) satisfies the guard and the
stated shift bounds. -/
theorem claim_C9_witness :
    1023 ≤ F64.exponentField ⟨0, 1100, 7⟩ ∧
    52 < F64.exponentField ⟨0, 1100, 7⟩ - 1023 ∧
    F64.mantissa ⟨0, 1100, 7⟩ *
      2 ^ (F64.exponentField ⟨0, 1100, 7⟩ - 1023 - 52) < 2 ^ 256 := by
  have h := claim_C9 ⟨0, 1100, 7⟩ (by decide) (by decide)
  refine ⟨h.1, by decide, (h.2.2 (by decide) (by decide)).2.2⟩

/-- Bound used by the saturation analysis: while the unbiased exponent stays
at most 255 the reconstructed value fits under `2 ^ 256 - 1`. -/
lemma mantissa_shift_le (mf e : Nat) (hm : mf < 2 ^ 52) (he : e ≤ 255) :
    (2 ^ 52 + mf) * 2 ^ e ≤ (2 ^ 256 - 1) * 2 ^ 52 := by
  have h1 : (2 ^ 52 + mf) * 2 ^ e ≤ (2 ^ 53 - 1) * 2 ^ 255 :=
    Nat.mul_le_mul (by omega) (Nat.pow_le_pow_right (by norm_num) he)
  omega

/-- Bound used by the saturation analysis: once the unbiased exponent reaches
256 the reconstructed value exceeds `2 ^ 256 - 1`. -/
lemma mantissa_shift_gt (mf e : Nat) (he : 256 ≤ e) :
    (2 ^ 256 - 1) * 2 ^ 52 < (2 ^ 52 + mf) * 2 ^ e := by
  have h1 : 2 ^ 52 * 2 ^ 256 ≤ (2 ^ 52 + mf) * 2 ^ e :=
    Nat.mul_le_mul (by omega) (Nat.pow_le_pow_right (by norm_num) he)
  omega

/-- Central computation for `from_f64_lossy` on a positive finite pattern
with value at least one: below the saturation threshold the result is the
floor of the rational value, at or above it the result is `U256::MAX`. -/
lemma from_f64_lossy_spec (x : F64) (h : x.wf) (hs : x.sign = 0)
    (hbe : 1023 ≤ x.be) (hf : x.be ≠ 2047) :
    (x.be - 1023 ≤ 255 → ((U256.from_f64_lossy x).value : ℤ) = ⌊x.val⌋) ∧
    (256 ≤ x.be - 1023 → U256.from_f64_lossy x = U256.MAX) := by
  have hg : x.ge_one = true := by
    rw [F64.ge_one, decide_eq_true_iff]
    exact ⟨fun hn => hf hn.1, hs, hbe⟩
  obtain ⟨hs2, hb, hm⟩ := h
  have hval : x.val = (((2 ^ 52 + x.mf) * 2 ^ (x.be - 1023) : ℕ) : ℚ) / 2 ^ 52 := by
    rw [F64.val, if_pos hs, one_mul, F64.mag_normal x hbe]
  have hfloor : ⌊x.val⌋ = ((2 ^ 52 + x.mf) * 2 ^ (x.be - 1023) / 2 ^ 52 : ℕ) := by
    rw [hval, floor_natCast_div_pow]
  simp only [U256.from_f64_lossy, if_pos hg,
    F64.exponentField_eq x ⟨hs2, hb, hm⟩, F64.mantissa_eq x ⟨hs2, hb, hm⟩]
  constructor
  · intro he255
    rw [hfloor]
    by_cases he52 : x.be - 1023 ≤ 52
    · rw [if_pos he52]
      have hdiv : (2 ^ 52 + x.mf) * 2 ^ (x.be - 1023) / 2 ^ 52 =
          (2 ^ 52 + x.mf) / 2 ^ (52 - (x.be - 1023)) := by
        have hsum : 52 - (x.be - 1023) + (x.be - 1023) = 52 := by omega
        have hsplit : (2 : ℕ) ^ 52 =
            2 ^ (52 - (x.be - 1023)) * 2 ^ (x.be - 1023) := by
          rw [← Nat.pow_add, hsum]
        rw [hsplit, Nat.mul_div_mul_right _ _ (Nat.pos_pow_of_pos _ (by norm_num))]
      rw [U256.value_ofNat256, hdiv]
      have hlt : (2 ^ 52 + x.mf) / 2 ^ (52 - (x.be - 1023)) < 2 ^ 256 := by
        have := Nat.div_le_self (2 ^ 52 + x.mf) (2 ^ (52 - (x.be - 1023)))
        omega
      rw [Nat.mod_eq_of_lt hlt]
    · rw [if_neg he52, if_neg (by omega)]
      have hfit : (2 ^ 52 + x.mf) * 2 ^ (x.be - 1023 - 52) < 2 ^ 256 := by
        calc (2 ^ 52 + x.mf) * 2 ^ (x.be - 1023 - 52) ≤ (2 ^ 53 - 1) * 2 ^ 203 :=
              Nat.mul_le_mul (by omega)
                (Nat.pow_le_pow_right (by norm_num) (by omega))
          _ < 2 ^ 256 := by norm_num
      have hdiv : (2 ^ 52 + x.mf) * 2 ^ (x.be - 1023) / 2 ^ 52 =
          (2 ^ 52 + x.mf) * 2 ^ (x.be - 1023 - 52) := by
        have hsum : x.be - 1023 - 52 + 52 = x.be - 1023 := by omega
        have hsplit : (2 : ℕ) ^ (x.be - 1023) =
            2 ^ (x.be - 1023 - 52) * 2 ^ 52 := by
          rw [← Nat.pow_add, hsum]
        rw [hsplit, ← Nat.mul_assoc,
          Nat.mul_div_cancel _ (Nat.pos_pow_of_pos _ (by norm_num))]
      have hm256 : (2 ^ 52 + x.mf) % 2 ^ 256 = 2 ^ 52 + x.mf :=
        Nat.mod_eq_of_lt (by omega)
      rw [U256.shl, U256.value_ofNat256, U256.value_ofNat256, hm256,
        Nat.mod_eq_of_lt hfit, hdiv]
  · intro he256
    rw [if_neg (by omega), if_pos (by omega)]

/-- Evaluating `from_f64_lossy` when the guard `value >= 1.0` fails. -/
lemma from_f64_lossy_of_ge_one_false (x : F64) (hg : x.ge_one = false) :
    U256.from_f64_lossy x = U256.ofNat 0 := by
  simp [U256.from_f64_lossy, hg]

/-- Claim C5: `from_f64_lossy` implements the saturating truncation policy:
NaN and every value at most zero (including negative infinity) map to 0,
values in the open interval (0,1) map to 0, every finite value in
`(0, 2 ^ 256 - 1]` maps to its toward-zero truncation (the rational floor,
since the value is positive), and every value above `2 ^ 256 - 1`, including
positive infinity, maps to `U256::MAX`. -/
theorem claim_C5 (x : F64) (h : x.wf) :
    (x.isNaN → U256.from_f64_lossy x = U256.ofNat 0) ∧
    (x.isNegInf → U256.from_f64_lossy x = U256.ofNat 0) ∧
    (x.isFinite → x.val ≤ 0 → U256.from_f64_lossy x = U256.ofNat 0) ∧
    (x.isFinite → 0 < x.val → x.val < 1 →
      U256.from_f64_lossy x = U256.ofNat 0) ∧
    (x.isFinite → 0 < x.val → x.val ≤ 2 ^ 256 - 1 →
      ((U256.from_f64_lossy x).value : ℤ) = ⌊x.val⌋) ∧
    (x.isFinite → (2 ^ 256 - 1 : ℚ) < x.val →
      U256.from_f64_lossy x = U256.MAX) ∧
    (x.isPosInf → U256.from_f64_lossy x = U256.MAX) := by
  refine ⟨?_, ?_, ?_, ?_, ?_, ?_, ?_⟩
  · intro hn
    apply from_f64_lossy_of_ge_one_false
    rw [F64.ge_one, decide_eq_false_iff_not]
    tauto
  · intro hn
    apply from_f64_lossy_of_ge_one_false
    rw [F64.ge_one, decide_eq_false_iff_not]
    rintro ⟨-, hs, -⟩
    rw [hn.2.2] at hs
    exact one_ne_zero hs
  · intro hfin hv
    apply from_f64_lossy_of_ge_one_false
    cases hx : x.ge_one with
    | false => rfl
    | true =>
      have := (F64.ge_one_iff_one_le_val x h hfin).mp hx
      linarith
  · intro hfin hv0 hv1
    apply from_f64_lossy_of_ge_one_false
    cases hx : x.ge_one with
    | false => rfl
    | true =>
      have := (F64.ge_one_iff_one_le_val x h hfin).mp hx
      linarith
  · intro hfin hv0 hvle
    have hs : x.sign = 0 := by
      by_contra hsne
      rw [F64.val, if_neg hsne] at hv0
      have := F64.mag_nonneg x
      nlinarith
    by_cases hbe : 1023 ≤ x.be
    · have he255 : x.be - 1023 ≤ 255 := by
        by_contra hgt
        have hN : (2 ^ 52 + x.mf) * 2 ^ (x.be - 1023) ≤ (2 ^ 256 - 1) * 2 ^ 52 := by
          have hval : x.val =
              (((2 ^ 52 + x.mf) * 2 ^ (x.be - 1023) : ℕ) : ℚ) / 2 ^ 52 := by
            rw [F64.val, if_pos hs, one_mul, F64.mag_normal x hbe]
          rw [hval, div_le_iff₀ (by positivity)] at hvle
          have : (((2 ^ 52 + x.mf) * 2 ^ (x.be - 1023) : ℕ) : ℚ) ≤
              (((2 ^ 256 - 1) * 2 ^ 52 : ℕ) : ℚ) := by
            calc (((2 ^ 52 + x.mf) * 2 ^ (x.be - 1023) : ℕ) : ℚ) ≤
                (2 ^ 256 - 1) * 2 ^ 52 := hvle
              _ = (((2 ^ 256 - 1) * 2 ^ 52 : ℕ) : ℚ) := by push_cast; norm_num
          exact_mod_cast this
        exact absurd hN (not_le.mpr (mantissa_shift_gt x.mf _ (by omega)))
      exact (from_f64_lossy_spec x h hs hbe hfin).1 he255
    · rw [from_f64_lossy_of_ge_one_false x ?side]
      · have hfl : ⌊x.val⌋ = 0 := by
          rw [Int.floor_eq_zero_iff]
          constructor
          · exact le_of_lt hv0
          · rw [F64.val, if_pos hs, one_mul]
            exact F64.mag_lt_one x h (by omega)
        rw [hfl, U256.value_ofNat256]
        norm_num
      case side =>
        cases hx : x.ge_one with
        | false => rfl
        | true =>
          have h1 := (F64.ge_one_iff_one_le_val x h hfin).mp hx
          rw [F64.val, if_pos hs, one_mul] at h1
          exact absurd h1 (not_le.mpr (F64.mag_lt_one x h (by omega)))
  · intro hfin hvgt
    have hv0 : 0 < x.val := lt_trans (by norm_num) hvgt
    have hs : x.sign = 0 := by
      by_contra hsne
      rw [F64.val, if_neg hsne] at hv0
      have := F64.mag_nonneg x
      nlinarith
    have hbe : 1023 ≤ x.be := by
      by_contra hbe
      have h1 : x.val < 1 := by
        rw [F64.val, if_pos hs, one_mul]
        exact F64.mag_lt_one x h (by omega)
      linarith
    have he256 : 256 ≤ x.be - 1023 := by
      by_contra hle
      have hN : (2 ^ 52 + x.mf) * 2 ^ (x.be - 1023) ≤ (2 ^ 256 - 1) * 2 ^ 52 :=
        mantissa_shift_le x.mf _ h.2.2 (by omega)
      have hval : x.val =
          (((2 ^ 52 + x.mf) * 2 ^ (x.be - 1023) : ℕ) : ℚ) / 2 ^ 52 := by
        rw [F64.val, if_pos hs, one_mul, F64.mag_normal x hbe]
      have : x.val ≤ 2 ^ 256 - 1 := by
        rw [hval, div_le_iff₀ (by positivity)]
        calc (((2 ^ 52 + x.mf) * 2 ^ (x.be - 1023) : ℕ) : ℚ) ≤
            (((2 ^ 256 - 1) * 2 ^ 52 : ℕ) : ℚ) := by exact_mod_cast hN
          _ = (2 ^ 256 - 1) * 2 ^ 52 := by push_cast; norm_num
      linarith
    exact (from_f64_lossy_spec x h hs hbe hfin).2 he256
  · intro hp
    have hg : x.ge_one = true := by
      rw [F64.ge_one, decide_eq_true_iff]
      exact ⟨fun hn => hn.2 hp.2.1, hp.2.2, by omega⟩
    obtain ⟨hs2, hb, hm⟩ := h
    simp only [U256.from_f64_lossy, if_pos hg,
      F64.exponentField_eq x ⟨hs2, hb, hm⟩]
    rw [hp.1]
    norm_num

/-- Witness for C5: the NaN pattern with sign 0 and mantissa field 1 maps
to zero. -/
theorem claim_C5_witness :
    U256.from_f64_lossy ⟨0, 2047, 1⟩ = U256.ofNat 0 :=
  (claim_C5 ⟨0, 2047, 1⟩ (by decide)).1 (by decide)

/-- Modelled from Rust language semantics: the cast `x as f64` for an
unsigned integer rounds to the nearest binary64 value, ties to even.  For
inputs below `2 ^ 53` the cast is exact; otherwise the low
`log2 x - 52` bits are rounded away.  The result is returned as the exact
natural number the produced float denotes (all results here are integers
far below the f64 overflow threshold). -/
def rnd53 (n : Nat) : Nat :=
  if n < 2 ^ 53 then n
  else if n % 2 ^ (n.log2 - 52) < 2 ^ (n.log2 - 52 - 1) then
    n / 2 ^ (n.log2 - 52) * 2 ^ (n.log2 - 52)
  else if 2 ^ (n.log2 - 52 - 1) < n % 2 ^ (n.log2 - 52) then
    (n / 2 ^ (n.log2 - 52) + 1) * 2 ^ (n.log2 - 52)
  else if n / 2 ^ (n.log2 - 52) % 2 = 0 then
    n / 2 ^ (n.log2 - 52) * 2 ^ (n.log2 - 52)
  else (n / 2 ^ (n.log2 - 52) + 1) * 2 ^ (n.log2 - 52)

/-- Rounding to 53 significant bits is exact below `2 ^ 53`. -/
lemma rnd53_eq_of_lt (n : Nat) (h : n < 2 ^ 53) : rnd53 n = n := by
  unfold rnd53
  rw [if_pos h]

/-- Round-to-nearest keeps the relative error within half an ulp:
`|rnd53 n - n| * 2 ^ 53 ≤ n`. -/
lemma rnd53_err (n : Nat) : ((rnd53 n : ℤ) - n).natAbs * 2 ^ 53 ≤ n := by
  unfold rnd53
  split
  · simp
  · rename_i hlt
    push_neg at hlt
    have hn0 : n ≠ 0 := by omega
    have hk53 : 53 ≤ n.log2 := (Nat.le_log2 hn0).mpr hlt
    have hpk : 2 ^ (52 + (n.log2 - 52)) ≤ n := by
      have h1 := Nat.log2_self_le hn0
      have h2 : 52 + (n.log2 - 52) = n.log2 := by omega
      rw [h2]
      exact h1
    have hq : n / 2 ^ (n.log2 - 52) * 2 ^ (n.log2 - 52) + n % 2 ^ (n.log2 - 52)
        = n := by
      rw [Nat.mul_comm]
      exact Nat.div_add_mod n _
    have hr : n % 2 ^ (n.log2 - 52) < 2 ^ (n.log2 - 52) :=
      Nat.mod_lt _ (by positivity)
    have hhalf2 : 2 ^ (n.log2 - 52 - 1) + 2 ^ (n.log2 - 52 - 1)
        = 2 ^ (n.log2 - 52) := by
      have h2 : n.log2 - 52 - 1 + 1 = n.log2 - 52 := by omega
      calc 2 ^ (n.log2 - 52 - 1) + 2 ^ (n.log2 - 52 - 1)
          = 2 ^ (n.log2 - 52 - 1) * 2 := by ring
        _ = 2 ^ (n.log2 - 52 - 1 + 1) := by rw [Nat.pow_succ]
        _ = 2 ^ (n.log2 - 52) := by rw [h2]
    have hph : 2 ^ (n.log2 - 52 - 1) * 2 ^ 53 = 2 ^ (52 + (n.log2 - 52)) := by
      rw [← Nat.pow_add]
      have h2 : n.log2 - 52 - 1 + 53 = 52 + (n.log2 - 52) := by omega
      rw [h2]
    have hd : (n / 2 ^ (n.log2 - 52) + 1) * 2 ^ (n.log2 - 52)
        = n / 2 ^ (n.log2 - 52) * 2 ^ (n.log2 - 52) + 2 ^ (n.log2 - 52) := by
      ring
    split
    · omega
    · split
      · omega
      · split
        · omega
        · omega

/-- Scaled version for the shifted tiers of `to_f64_lossy`: converting the
quotient by `2 ^ t` and restoring scale keeps the relative error within
`2 ^ (-52)` provided the value reaches `2 ^ (t + 64)`. -/
lemma rnd53_scaled_err (v t : Nat) (ht1 : 1 ≤ t) (hlow : 2 ^ (t + 64) ≤ v) :
    (((rnd53 (v / 2 ^ t) * 2 ^ t : ℕ) : ℤ) - v).natAbs * 2 ^ 52 ≤ v := by
  have herr := rnd53_err (v / 2 ^ t)
  have hx : 2 ^ 64 ≤ v / 2 ^ t := by
    rw [Nat.le_div_iff_mul_le (by positivity)]
    calc 2 ^ 64 * 2 ^ t = 2 ^ (t + 64) := by
          rw [← Nat.pow_add, Nat.add_comm]
      _ ≤ v := hlow
  have hq : v / 2 ^ t * 2 ^ t + v % 2 ^ t = v := by
    rw [Nat.mul_comm]
    exact Nat.div_add_mod v _
  have hr : v % 2 ^ t < 2 ^ t := Nat.mod_lt _ (by positivity)
  set d := rnd53 (v / 2 ^ t) with hddef
  set x := v / 2 ^ t with hxdef
  set r := v % 2 ^ t with hrdef
  set D := ((d : ℤ) - x).natAbs with hDdef
  have hvz : (v : ℤ) = (x : ℤ) * 2 ^ t + r := by
    have hc := congrArg (fun m : ℕ => (m : ℤ)) hq
    push_cast at hc
    linarith
  have hsplit : ((d * 2 ^ t : ℕ) : ℤ) - v = ((d : ℤ) - x) * 2 ^ t - r := by
    push_cast
    rw [hvz]
    ring
  have htri : (((d * 2 ^ t : ℕ) : ℤ) - v).natAbs ≤ D * 2 ^ t + r := by
    rw [hsplit]
    calc (((d : ℤ) - x) * 2 ^ t - r).natAbs
        ≤ (((d : ℤ) - x) * 2 ^ t).natAbs + ((r : ℤ)).natAbs :=
          Int.natAbs_sub_le _ _
      _ = D * 2 ^ t + r := by
          have hp : ((2 : ℤ) ^ t).natAbs = 2 ^ t := by
            rw [Int.natAbs_pow]
            rfl
          rw [Int.natAbs_mul, hp, Int.natAbs_ofNat]
  have e1 : D * 2 ^ t * 2 ^ 52 = D * 2 ^ 53 * 2 ^ (t - 1) := by
    rw [Nat.mul_assoc, Nat.mul_assoc, ← Nat.pow_add, ← Nat.pow_add]
    have h2 : t + 52 = 53 + (t - 1) := by omega
    rw [h2]
  have e2 : D * 2 ^ 53 * 2 ^ (t - 1) ≤ x * 2 ^ (t - 1) :=
    Nat.mul_le_mul_right _ herr
  have e3 : r * 2 ^ 52 ≤ x * 2 ^ (t - 1) := by
    calc r * 2 ^ 52 ≤ 2 ^ t * 2 ^ 52 := Nat.mul_le_mul_right _ (le_of_lt hr)
      _ = 2 ^ (t + 52) := by rw [← Nat.pow_add]
      _ ≤ 2 ^ (64 + (t - 1)) := Nat.pow_le_pow_right (by norm_num) (by omega)
      _ = 2 ^ 64 * 2 ^ (t - 1) := by rw [← Nat.pow_add]
      _ ≤ x * 2 ^ (t - 1) := Nat.mul_le_mul_right _ hx
  have e4 : x * 2 ^ (t - 1) + x * 2 ^ (t - 1) = x * 2 ^ t := by
    have h2 : t - 1 + 1 = t := by omega
    calc x * 2 ^ (t - 1) + x * 2 ^ (t - 1) = x * (2 ^ (t - 1) * 2) := by ring
      _ = x * 2 ^ (t - 1 + 1) := by rw [Nat.pow_succ]
      _ = x * 2 ^ t := by rw [h2]
  have e5 : x * 2 ^ t ≤ v := by omega
  calc (((d * 2 ^ t : ℕ) : ℤ) - v).natAbs * 2 ^ 52
      ≤ (D * 2 ^ t + r) * 2 ^ 52 := Nat.mul_le_mul_right _ htri
    _ = D * 2 ^ t * 2 ^ 52 + r * 2 ^ 52 := by ring
    _ ≤ x * 2 ^ (t - 1) + x * 2 ^ (t - 1) := by
        rw [e1]
        exact Nat.add_le_add e2 e3
    _ = x * 2 ^ t := e4
    _ ≤ v := e5

/-- `U256::to_f64_lossy` (source lines 144–151): match on the limb pattern —
if limbs 2 and 3 are zero promote the value directly; if only limb 3 is zero
promote `self >> 64` and scale by `2 ^ 64`; otherwise promote `self >> 128`
and scale by `2 ^ 128`.  The promotion `res.low_u128() as f64` is modelled by
`rnd53` (Rust casts round to nearest, ties to even) and the final `f64`
multiplication by a power of two is exact at these magnitudes, so the
function returns the exact natural number denoted by the resulting float. -/
def U256.to_f64_lossy (x : U256) : Nat :=
  if x.a2 = 0 ∧ x.a3 = 0 then rnd53 x.low_u128
  else if x.a3 = 0 then rnd53 (x.shr 64).low_u128 * 2 ^ 64
  else rnd53 (x.shr 128).low_u128 * 2 ^ 128

/-- Tier selection of `to_f64_lossy`: with limbs 2 and 3 zero the value is
promoted directly. -/
lemma to_f64_lossy_eq_low (v : U256) (h : v.wf) (hz2 : v.a2 = 0)
    (hz3 : v.a3 = 0) : U256.to_f64_lossy v = rnd53 v.value := by
  obtain ⟨h0, h1, h2, h3⟩ := h
  have hlt : v.value < 2 ^ 128 := by
    simp only [U256.value, hz2, hz3]
    omega
  simp only [U256.to_f64_lossy, if_pos (And.intro hz2 hz3), U256.low_u128,
    Nat.mod_eq_of_lt hlt]

/-- Tier selection of `to_f64_lossy`: with limb 3 zero but limb 2 nonzero
the value is shifted down 64 bits, promoted, and rescaled by `2 ^ 64`. -/
lemma to_f64_lossy_eq_mid (v : U256) (h : v.wf) (hn2 : v.a2 ≠ 0)
    (hz3 : v.a3 = 0) :
    U256.to_f64_lossy v = rnd53 (v.value / 2 ^ 64) * 2 ^ 64 := by
  obtain ⟨h0, h1, h2, h3⟩ := h
  have hcond : ¬(v.a2 = 0 ∧ v.a3 = 0) := fun hc => hn2 hc.1
  have hlt : v.value / 2 ^ 64 < 2 ^ 128 := by
    have hv : v.value < 2 ^ 192 := by
      simp only [U256.value, hz3]
      omega
    omega
  simp only [U256.to_f64_lossy, if_neg hcond, if_pos hz3, U256.shr,
    U256.low_u128, U256.value_ofNat256]
  rw [Nat.mod_mod_of_dvd _ (pow_dvd_pow 2 (by norm_num)),
    Nat.mod_eq_of_lt hlt]

/-- Tier selection of `to_f64_lossy`: with limb 3 nonzero the value is
shifted down 128 bits, promoted, and rescaled by `2 ^ 128`. -/
lemma to_f64_lossy_eq_high (v : U256) (h : v.wf) (hn3 : v.a3 ≠ 0) :
    U256.to_f64_lossy v = rnd53 (v.value / 2 ^ 128) * 2 ^ 128 := by
  obtain ⟨h0, h1, h2, h3⟩ := h
  have hcond : ¬(v.a2 = 0 ∧ v.a3 = 0) := fun hc => hn3 hc.2
  have hlt : v.value / 2 ^ 128 < 2 ^ 128 := by
    have hv : v.value < 2 ^ 256 := by
      simp only [U256.value]
      omega
    omega
  simp only [U256.to_f64_lossy, if_neg hcond, if_neg hn3, U256.shr,
    U256.low_u128, U256.value_ofNat256]
  rw [Nat.mod_mod_of_dvd _ (pow_dvd_pow 2 (by norm_num)),
    Nat.mod_eq_of_lt hlt]

/-- Relative error of `to_f64_lossy` is within `2 ^ (-52)` of the true value
on every well-formed input. -/
lemma to_f64_lossy_err (v : U256) (h : v.wf) :
    ((U256.to_f64_lossy v : ℤ) - v.value).natAbs * 2 ^ 52 ≤ v.value := by
  by_cases hz3 : v.a3 = 0
  · by_cases hz2 : v.a2 = 0
    · rw [to_f64_lossy_eq_low v h hz2 hz3]
      have herr := rnd53_err v.value
      omega
    · rw [to_f64_lossy_eq_mid v h hz2 hz3]
      have hlow : 2 ^ (64 + 64) ≤ v.value := by
        simp only [U256.value]
        omega
      exact rnd53_scaled_err v.value 64 (by norm_num) hlow
  · rw [to_f64_lossy_eq_high v h hz3]
    have hlow : 2 ^ (128 + 64) ≤ v.value := by
      simp only [U256.value]
      omega
    exact rnd53_scaled_err v.value 128 (by norm_num) hlow

/-- Claim C6: `to_f64_lossy` is total and follows the tiered shift-then-scale
algorithm — direct promotion when limbs 2 and 3 are zero, shift by 64 and
scale by `2 ^ 64` when only limb 3 is zero, shift by 128 and scale by
`2 ^ 128` otherwise — and the result stays within floating-point rounding of
the true value (relative error at most `2 ^ (-52)`). -/
theorem claim_C6 (v : U256) (h : v.wf) :
    (v.a2 = 0 ∧ v.a3 = 0 → U256.to_f64_lossy v = rnd53 v.value) ∧
    (v.a2 ≠ 0 → v.a3 = 0 →
      U256.to_f64_lossy v = rnd53 (v.value / 2 ^ 64) * 2 ^ 64) ∧
    (v.a3 ≠ 0 → U256.to_f64_lossy v = rnd53 (v.value / 2 ^ 128) * 2 ^ 128) ∧
    ((U256.to_f64_lossy v : ℤ) - v.value).natAbs * 2 ^ 52 ≤ v.value :=
  ⟨fun hc => to_f64_lossy_eq_low v h hc.1 hc.2,
   fun hn2 hz3 => to_f64_lossy_eq_mid v h hn2 hz3,
   fun hn3 => to_f64_lossy_eq_high v h hn3,
   to_f64_lossy_err v h⟩

/-- Witness for C6: the value 1 sits in the direct-promotion tier and its
conversion has zero error. -/
theorem claim_C6_witness :
    ((U256.to_f64_lossy ⟨1, 0, 0, 0⟩ : ℤ) - U256.value ⟨1, 0, 0, 0⟩).natAbs *
      2 ^ 52 ≤ U256.value ⟨1, 0, 0, 0⟩ :=
  (claim_C6 ⟨1, 0, 0, 0⟩ (by decide)).2.2.2

/-- Modelled from Rust language semantics: re-packing the exact natural
number denoted by the `f64` that `to_f64_lossy` returns into the binary64
bit fields that `from_f64_lossy` reads via `to_bits`.  Faithful whenever the
natural is exactly representable, in particular for every `n < 2 ^ 53`. -/
def F64.ofNatExact (n : Nat) : F64 :=
  if n = 0 then ⟨0, 0, 0⟩
  else if n.log2 ≤ 52 then ⟨0, 1023 + n.log2, n * 2 ^ (52 - n.log2) - 2 ^ 52⟩
  else ⟨0, 1023 + n.log2, n / 2 ^ (n.log2 - 52) - 2 ^ 52⟩

/-- `from_f64_lossy` recovers every integer below `2 ^ 53` from its binary64
encoding. -/
lemma from_f64_ofNatExact (n : Nat) (h : n < 2 ^ 53) :
    U256.from_f64_lossy (F64.ofNatExact n) = U256.ofNat n := by
  by_cases h0 : n = 0
  · subst h0
    rfl
  · have hlog52 : n.log2 ≤ 52 := by
      have := (Nat.log2_lt h0).mpr h
      omega
    have hl1 : 2 ^ n.log2 ≤ n := Nat.log2_self_le h0
    have hl2 : n < 2 ^ (n.log2 + 1) := Nat.lt_log2_self
    set L := n.log2 with hL
    have hmf_lo : 2 ^ 52 ≤ n * 2 ^ (52 - L) := by
      calc (2 : ℕ) ^ 52 = 2 ^ L * 2 ^ (52 - L) := by
            rw [← Nat.pow_add, (by omega : L + (52 - L) = 52)]
        _ ≤ n * 2 ^ (52 - L) := Nat.mul_le_mul_right _ hl1
    have hmf_hi : n * 2 ^ (52 - L) < 2 ^ 53 := by
      calc n * 2 ^ (52 - L) < 2 ^ (L + 1) * 2 ^ (52 - L) :=
            (Nat.mul_lt_mul_right (Nat.pos_pow_of_pos _ (by norm_num))).mpr hl2
        _ = 2 ^ 53 := by rw [← Nat.pow_add, (by omega : L + 1 + (52 - L) = 53)]
    have hid : F64.ofNatExact n = ⟨0, 1023 + L, n * 2 ^ (52 - L) - 2 ^ 52⟩ := by
      simp only [F64.ofNatExact, if_neg h0, if_pos hlog52]
    rw [hid]
    set mf := n * 2 ^ (52 - L) - 2 ^ 52 with hmf
    have hwf : F64.wf ⟨0, 1023 + L, mf⟩ := by
      refine ⟨by norm_num, ?_, ?_⟩
      · show 1023 + L < 2 ^ 11
        omega
      · show mf < 2 ^ 52
        omega
    have hg : F64.ge_one ⟨0, 1023 + L, mf⟩ = true := by
      rw [F64.ge_one, decide_eq_true_iff]
      refine ⟨?_, rfl, ?_⟩
      · rintro ⟨hbe, -⟩
        change 1023 + L = 2047 at hbe
        omega
      · show 1023 ≤ 1023 + L
        omega
    simp only [U256.from_f64_lossy, if_pos hg, F64.exponentField_eq _ hwf,
      F64.mantissa_eq _ hwf]
    have hexp : 1023 + L - 1023 = L := by omega
    rw [hexp, if_pos hlog52]
    have hmant : 2 ^ 52 + mf = n * 2 ^ (52 - L) := by omega
    rw [hmant, Nat.mul_div_cancel _ (Nat.pos_pow_of_pos _ (by norm_num))]

/-- Claim C7: float round-trip tolerance — every value below `2 ^ 53`
(covering all integers with fewer than 53 significant bits) converts to f64
exactly and converts back to the original `U256`; for every value the
relative error of `to_f64_lossy` is bounded by `2 ^ (-52)` (exact below 53
bits, so the bound also covers all wider values as the claim requires). -/
theorem claim_C7 (v : U256) (h : v.wf) :
    (v.value < 2 ^ 53 →
      U256.to_f64_lossy v = v.value ∧
      U256.from_f64_lossy (F64.ofNatExact (U256.to_f64_lossy v)) = v) ∧
    ((U256.to_f64_lossy v : ℤ) - v.value).natAbs * 2 ^ 52 ≤ v.value := by
  refine ⟨?_, to_f64_lossy_err v h⟩
  intro hlt
  obtain ⟨h0, h1, h2, h3⟩ := h
  have hz2 : v.a2 = 0 := by
    simp only [U256.value] at hlt
    omega
  have hz3 : v.a3 = 0 := by
    simp only [U256.value] at hlt
    omega
  have heq : U256.to_f64_lossy v = v.value := by
    rw [to_f64_lossy_eq_low v ⟨h0, h1, h2, h3⟩ hz2 hz3, rnd53_eq_of_lt _ hlt]
  refine ⟨heq, ?_⟩
  rw [heq, from_f64_ofNatExact _ hlt, U256.ofNat_value v ⟨h0, h1, h2, h3⟩]

/-- Witness for C7: the value 5 round-trips exactly through the float
conversions. -/
theorem claim_C7_witness :
    U256.from_f64_lossy (F64.ofNatExact (U256.to_f64_lossy ⟨5, 0, 0, 0⟩)) =
      ⟨5, 0, 0, 0⟩ :=
  ((claim_C7 ⟨5, 0, 0, 0⟩ (by decide)).1 (by decide)).2

/-- Modelled from the spec: `impl_fixed_hash_conversions!(H256, H160)`
(source line 104, macro from the external `fixed-hash` crate) — embedding an
`H160` into an `H256` zero-pads the twelve high-order bytes and places the
twenty bytes in the low-order position.  Byte sequences are listed
high-order first. -/
def h256_from_h160 (h : List Nat) : List Nat := List.replicate 12 0 ++ h

/-- Modelled from the spec: the reverse truncation of
`impl_fixed_hash_conversions!(H256, H160)` drops the twelve high-order bytes
and keeps the low-order twenty. -/
def h160_from_h256 (w : List Nat) : List Nat := w.drop 12

/-- Claim C8: the `H160 ↔ H256` bridge — embedding zero-pads the high-order
bytes and keeps the 20 source bytes in the low-order position; truncation
keeps only the low-order 20 bytes; the embed-then-truncate round trip is the
identity on every `H160`; and for any `H256` whose top 12 bytes are not all
zero, truncating and embedding back does not reproduce the original. -/
theorem claim_C8 (h w : List Nat) (hh : h.length = 20) (hw : w.length = 32) :
    (h256_from_h160 h).length = 32 ∧
    (h256_from_h160 h).take 12 = List.replicate 12 0 ∧
    (h256_from_h160 h).drop 12 = h ∧
    h160_from_h256 (h256_from_h160 h) = h ∧
    (h160_from_h256 w).length = 20 ∧
    (w.take 12 ≠ List.replicate 12 0 →
      h256_from_h160 (h160_from_h256 w) ≠ w) := by
  have hkey : ∀ l : List Nat,
      (List.replicate 12 (0 : Nat) ++ l).take 12 = List.replicate 12 0 :=
    fun l => List.take_left' (by simp)
  have hdrop : ∀ l : List Nat,
      (List.replicate 12 (0 : Nat) ++ l).drop 12 = l :=
    fun l => List.drop_left' (by simp)
  refine ⟨?_, hkey h, hdrop h, hdrop h, ?_, ?_⟩
  · simp [h256_from_h160, hh]
  · simp [h160_from_h256, hw]
  · intro hne heq
    apply hne
    calc w.take 12 = (h256_from_h160 (h160_from_h256 w)).take 12 := by rw [heq]
      _ = List.replicate 12 0 := hkey _

/-- Witness for C8: the 32-byte identifier whose first byte is 1 does not
survive the truncate-then-embed round trip. -/
theorem claim_C8_witness :
    h256_from_h160 (h160_from_h256 (1 :: List.replicate 31 0)) ≠
      1 :: List.replicate 31 0 :=
  (claim_C8 (List.replicate 20 0) (1 :: List.replicate 31 0)
    (by decide) (by decide)).2.2.2.2.2 (by decide)
